import Mathlib

/-!
Verification development for the investment-portfolio hierarchical
allocation tree (`src/models/node.py`) and its Sankey diagram builder
(`src/ui/diagram.py`).

Modelling conventions:
* Python `float` percentages and weights are modelled as exact rationals `ℚ`.
* Python `dict`s (which preserve insertion order) are modelled as association
  lists `List (κ × α)`: assignment to a present key overwrites in place,
  assignment to a fresh key appends at the end.
* The mutable Python object graph is modelled as an explicit heap mapping
  numeric node ids to node records; constructing a `Node` allocates a fresh id.
* `str.strip()` is modelled by `pyStrip`, dropping leading and trailing
  whitespace characters.
* The modules `allocation.py`, `enums.py`, `hierarchy.py` and `providers.py`
  are not among the inspected sources; their interfaces are modelled from the
  specification (each such definition is marked `Modelled from the spec:`).
-/

namespace Portfolio

/-- First-match lookup in an association list (Python `d[k]` / `d.get(k)`). -/
def lookupA {κ α : Type} [DecidableEq κ] : List (κ × α) → κ → Option α
  | [], _ => none
  | (k, v) :: rest, key => if k = key then some v else lookupA rest key

/-- Python dict assignment `d[k] = v`: overwrite the entry if the key is
present, otherwise append a new entry at the end (insertion order). -/
def setEntry {κ α : Type} [DecidableEq κ] : List (κ × α) → κ → α → List (κ × α)
  | [], k, v => [(k, v)]
  | (k', v') :: rest, k, v =>
      if k' = k then (k, v) :: rest else (k', v') :: setEntry rest k v

/-- Python `del d[k]`: drop the entry with the given key. -/
def eraseKey {κ α : Type} [DecidableEq κ] : List (κ × α) → κ → List (κ × α)
  | [], _ => []
  | (k', v') :: rest, k => if k' = k then rest else (k', v') :: eraseKey rest k

/-- The keys of an association list, in order. -/
def keysOf {κ α : Type} (l : List (κ × α)) : List κ := l.map Prod.fst

/-- Python `str.strip()` on the underlying character list: drop leading
whitespace, then drop trailing whitespace. -/
def stripChars (l : List Char) : List Char :=
  ((l.dropWhile Char.isWhitespace).reverse.dropWhile Char.isWhitespace).reverse

/-- Python `str.strip()`. -/
def pyStrip (s : String) : String := String.mk (stripChars s.data)

/-- Modelled from the spec: the closed set of node kinds (`enums.NodeType`;
its defining module is not among the inspected sources).  Root and top-level
asset-category container kinds, plus the associated "symbol" leaf kinds whose
Python enum member names end in `_SYMBOL`. -/
inductive NodeType where
  | ROOT
  | CASH
  | ETF
  | STOCK
  | FUND
  | CRYPTO
  | OTHER
  | ETF_SYMBOL
  | STOCK_SYMBOL
  | FUND_SYMBOL
  | CRYPTO_SYMBOL
deriving DecidableEq

/-- Modelled from the spec: the Python enum member name (`NodeType.name`),
consumed by `get_available_child_names` via `.name.endswith("_SYMBOL")`. -/
def NodeType.pyName : NodeType → String
  | .ROOT => "ROOT"
  | .CASH => "CASH"
  | .ETF => "ETF"
  | .STOCK => "STOCK"
  | .FUND => "FUND"
  | .CRYPTO => "CRYPTO"
  | .OTHER => "OTHER"
  | .ETF_SYMBOL => "ETF_SYMBOL"
  | .STOCK_SYMBOL => "STOCK_SYMBOL"
  | .FUND_SYMBOL => "FUND_SYMBOL"
  | .CRYPTO_SYMBOL => "CRYPTO_SYMBOL"

/-- Modelled from the spec: `AllocationGroup` (`allocation.py` is not among
the inspected sources) — the percentage ledger for one node's children: a
mapping from child name to percentage plus the set of user-pinned ("fixed")
child names, modelled as a list. -/
structure AllocationGroup where
  allocations : List (String × ℚ)
  fixed_items : List String
deriving DecidableEq

/-- Modelled from the spec: `AllocationGroup.get_allocation(name, default)` —
the stored percentage for `name`, or `default` if absent. -/
def AllocationGroup.get_allocation (g : AllocationGroup) (name : String)
    (default : ℚ) : ℚ :=
  (lookupA g.allocations name).getD default

/-- Modelled from the spec: `AllocationGroup.update_allocation(name, value)` —
set/overwrite the stored percentage for `name`. -/
def AllocationGroup.update_allocation (g : AllocationGroup) (name : String)
    (value : ℚ) : AllocationGroup :=
  { g with allocations := setEntry g.allocations name value }

/-- Modelled from the spec: `AllocationGroup` declares no truthiness override
(`__bool__`/`__len__` are not part of its specified contract), so a Python
instance is always truthy; the guards `if not self.allocation_group:` and
`if self.allocation_group:` in `node.py` therefore always see a truthy value. -/
def AllocationGroup.toBool (_ : AllocationGroup) : Bool := true

/-- Modelled from the spec: the interfaces of the registries consumed by
`node.py` — `hierarchy_manager` (containment policy) and `asset_registry`
(name/kind oracle) — together with `NodeType.get_symbol_type`; their defining
modules are not among the inspected sources, so the tree operations are
stated generically over any such environment. -/
structure Env where
  can_have_children : NodeType → Bool
  get_valid_child_types : NodeType → List NodeType
  get_symbol_type : NodeType → Option NodeType
  get_symbol_names : NodeType → List String
  get_available_names : List NodeType → List String
  get_name_type : String → List NodeType → Option NodeType

/-- The fields of `Node` (`node.py`): name, kind, children (a dict from child
name to the child object, here its heap id), one `AllocationGroup`, and the
parent back-reference `parent_node`. -/
structure NodeData where
  name : String
  node_type : NodeType
  children : List (String × Nat)
  allocation_group : AllocationGroup
  parent_node : Option Nat
deriving DecidableEq

/-- The Python object graph: a heap of node records addressed by id, plus a
fresh-id counter (each `Node(...)` construction allocates a fresh object). -/
structure Heap where
  nodes : List (Nat × NodeData)
  next_id : Nat
deriving DecidableEq

def Heap.get (h : Heap) (id : Nat) : Option NodeData := lookupA h.nodes id

def Heap.set (h : Heap) (id : Nat) (d : NodeData) : Heap :=
  { h with nodes := setEntry h.nodes id d }

/-- Transcription of `Node.__init__`: a fresh node has no children, a fresh empty
`AllocationGroup`, and no parent. -/
def NodeData.new (name : String) (node_type : NodeType) : NodeData :=
  { name := name, node_type := node_type, children := [],
    allocation_group := ⟨[], []⟩, parent_node := none }

/-- A heap holding exactly one freshly constructed node, at id 0. -/
def initHeap (name : String) (node_type : NodeType) : Heap :=
  { nodes := [(0, NodeData.new name node_type)], next_id := 1 }

/-- The reserved root identifier `ROOT_NAME = "投資組合"` (`node.py`). -/
def ROOT_NAME : String := "投資組合"

/-- Transcription of `Node.is_root` (`node.py`): `return self.name == ROOT_NAME`. -/
def is_root (d : NodeData) : Bool := d.name == ROOT_NAME

/-- The `root_asset_types` table local to `Node.determine_child_type`. -/
def root_asset_types : List (String × NodeType) :=
  [("現金", .CASH), ("ETF", .ETF), ("股票", .STOCK),
   ("基金", .FUND), ("加密貨幣", .CRYPTO), ("其他", .OTHER)]

/-- Transcription of `Node.determine_child_type` (`node.py`): resolve the kind a prospective
child named `child_name` would have. -/
def determine_child_type (env : Env) (d : NodeData) (child_name : String) :
    Option NodeType :=
  let valid_types := env.get_valid_child_types d.node_type
  if valid_types.isEmpty then none
  else if is_root d then
    let node_type := (lookupA root_asset_types child_name).getD NodeType.OTHER
    if node_type ∈ valid_types then some node_type else none
  else
    match env.get_symbol_type d.node_type with
    | some symbol_type =>
        if symbol_type ∈ valid_types ∧
            (child_name = "其他" ∨ child_name ∉ env.get_symbol_names d.node_type)
        then some symbol_type
        else env.get_name_type child_name valid_types
    | none => env.get_name_type child_name valid_types

/-- Transcription of `Node.get_available_child_names` (`node.py`). -/
def get_available_child_names (env : Env) (d : NodeData) : List String :=
  if ¬ env.can_have_children d.node_type then []
  else if is_root d then ["現金", "ETF", "股票", "基金", "加密貨幣", "其他"]
  else
    match env.get_valid_child_types d.node_type with
    | [] => []
    | [t] =>
        (if (NodeType.pyName t).endsWith "_SYMBOL"
         then env.get_symbol_names d.node_type
         else env.get_available_names [t]) ++ ["其他"]
    | t₁ :: t₂ :: ts => env.get_available_names (t₁ :: t₂ :: ts) ++ ["其他"]

/-- Transcription of `Node._initialize_child_allocation` (`node.py`), applied to the node state
after the new child has been inserted into `children`.  Python reads
`self.allocation_group.allocations[n]` for each fixed item `n`, which raises
`KeyError` when a fixed item has no allocation entry; the model totalises this
with default 0 — the well-formedness invariant proved below keeps
`fixed_items ⊆ keys(allocations)` on all reachable heaps, so that branch is
never exercised. -/
def initialize_child_allocation (d : NodeData) (name : String)
    (parent_weight : ℚ) : NodeData :=
  let d :=
    if d.allocation_group.toBool then d
    else { d with allocation_group := ⟨[], []⟩ }
  if d.children.length = 1 then
    { d with allocation_group :=
        d.allocation_group.update_allocation name parent_weight }
  else
    let unfixed_total : ℚ :=
      100 - (d.allocation_group.fixed_items.map
        (fun n => (lookupA d.allocation_group.allocations n).getD 0)).sum
    let unfixed_count : ℤ :=
      (d.children.length : ℤ) - (d.allocation_group.fixed_items.length : ℤ)
    if 0 < unfixed_count then
      let share : ℚ := unfixed_total / (unfixed_count : ℚ)
      { d with allocation_group :=
          d.allocation_group.update_allocation name share }
    else
      { d with allocation_group :=
          d.allocation_group.update_allocation name 0 }

/-- Transcription of `Node.add_child` (`node.py`).  Returns the Python pair
`(node-or-None, error message)` together with the post-state heap.  The
`none` heap-lookup branch is a model artifact: in Python the method runs on a
live object, so `h.get self_id` is always `some`. -/
def add_child (env : Env) (h : Heap) (self_id : Nat) (name : String)
    (parent_weight : ℚ) : Option Nat × String × Heap :=
  match h.get self_id with
  | none => (none, "", h)
  | some d =>
      let cleaned_name := pyStrip name
      if cleaned_name = "" ∨ (lookupA d.children cleaned_name).isSome then
        (none, "名稱不能為空或已存在", h)
      else if ¬ env.can_have_children d.node_type then
        (none, "不能新增子節點", h)
      else
        match determine_child_type env d cleaned_name with
        | none => (none, "不支援此節點類型", h)
        | some node_type =>
            let cid := h.next_id
            let new_node : NodeData :=
              { name := cleaned_name, node_type := node_type, children := [],
                allocation_group := ⟨[], []⟩, parent_node := some self_id }
            let d' := initialize_child_allocation
              { d with children := setEntry d.children cleaned_name cid }
              cleaned_name parent_weight
            (some cid, "",
              { nodes := setEntry (h.nodes ++ [(cid, new_node)]) self_id d',
                next_id := cid + 1 })

/-- Transcription of `Node.remove_child` (`node.py`). -/
def remove_child (h : Heap) (self_id : Nat) (name : String) : Bool × Heap :=
  match h.get self_id with
  | none => (false, h)
  | some d =>
      if (lookupA d.children name).isNone then (false, h)
      else
        let d := { d with children := eraseKey d.children name }
        let d :=
          if d.allocation_group.toBool then
            let g := d.allocation_group
            let g :=
              if (lookupA g.allocations name).isSome then
                { g with allocations := eraseKey g.allocations name }
              else g
            let g :=
              if name ∈ g.fixed_items then
                { g with fixed_items := g.fixed_items.erase name }
              else g
            { d with allocation_group := g }
          else d
        (true, h.set self_id d)

/-- One mutation of the tree: an `add_child` or `remove_child` call on some
node. -/
inductive Op where
  | add (target : Nat) (name : String) (w : ℚ)
  | rem (target : Nat) (name : String)

/-- Apply one operation to the heap (result values are discarded). -/
def applyOp (env : Env) (h : Heap) : Op → Heap
  | .add t n w => (add_child env h t n w).2.2
  | .rem t n => (remove_child h t n).2

/-- Apply a sequence of operations. -/
def run (env : Env) (h : Heap) : List Op → Heap
  | [] => h
  | op :: rest => run env (applyOp env h op) rest

/-- Modelled from the spec: a concrete instantiation of the registry
environment, used for concrete executions.  The root may contain the six
top-level category kinds (per the spec, each entry of the root category
table is a valid root child kind); each instrument-container kind may
contain exactly its associated `_SYMBOL` leaf kind; symbol kinds are
leaves.  The name catalog is taken to be empty, so free-text names resolve
through the symbol-kind shortcut. -/
def specEnv : Env where
  can_have_children t :=
    match t with
    | .ROOT | .CASH | .ETF | .STOCK | .FUND | .CRYPTO | .OTHER => true
    | _ => false
  get_valid_child_types t :=
    match t with
    | .ROOT => [.CASH, .ETF, .STOCK, .FUND, .CRYPTO, .OTHER]
    | .ETF => [.ETF_SYMBOL]
    | .STOCK => [.STOCK_SYMBOL]
    | .FUND => [.FUND_SYMBOL]
    | .CRYPTO => [.CRYPTO_SYMBOL]
    | _ => []
  get_symbol_type t :=
    match t with
    | .ETF => some .ETF_SYMBOL
    | .STOCK => some .STOCK_SYMBOL
    | .FUND => some .FUND_SYMBOL
    | .CRYPTO => some .CRYPTO_SYMBOL
    | _ => none
  get_symbol_names _ := []
  get_available_names _ := []
  get_name_type _ _ := none

/-- A node together with its chain of parent back-references, the read-only
view walked by `Node.full_path`: either the node has no parent, or it has
one, itself carrying such a chain.  (An inductive value cannot alias, which
matches the read-only use of `parent` for path reconstruction.) -/
inductive UpNode where
  | orphan (name : String)
  | child (name : String) (parent : UpNode)

/-- Transcription of `Node.full_path` (`node.py`): the node's own name if it has no parent,
otherwise the parent's full path, `" -> "`, and the node's name. -/
def full_path : UpNode → String
  | .orphan name => name
  | .child name parent => full_path parent ++ " -> " ++ name

/-- Specification-side reading: the sequence of names from the root to this
node. -/
def names_from_root : UpNode → List String
  | .orphan name => [name]
  | .child name parent => names_from_root parent ++ [name]

/-- Specification-side reading: join a non-empty sequence of names with the
`" -> "` separator. -/
def joinPath : List String → String
  | [] => ""
  | [x] => x
  | x :: y :: rest => x ++ " -> " ++ joinPath (y :: rest)

/-- A tree view of the object graph read by `create_sankey_chart`
(`diagram.py`): the function only reads `name`, `node_type`,
`children.values()` (in insertion order) and `allocation_group` of each
node, never parent links, so a node is a name, a kind, the list of child
nodes, and an allocation group. -/
inductive VNode where
  | mk (name : String) (node_type : NodeType) (children : List VNode)
      (allocation_group : AllocationGroup)

def VNode.name : VNode → String
  | .mk n _ _ _ => n

def VNode.node_type : VNode → NodeType
  | .mk _ t _ _ => t

def VNode.children : VNode → List VNode
  | .mk _ _ cs _ => cs

def VNode.allocation_group : VNode → AllocationGroup
  | .mk _ _ _ g => g

/-- Modelled from the spec: `enums.get_color` — the display colour for a node
kind (its defining module is not among the inspected sources; the palette is
irrelevant to the flow computation, so the kind's name is used). -/
def get_color (t : NodeType) : String := t.pyName

/-- The `SankeyChart` accumulator (`diagram.py`). -/
structure SankeyChart where
  source_indices : List ℤ
  target_indices : List ℤ
  flow_values : List ℚ
  node_labels : List String
  node_colors : List String
deriving DecidableEq

/-- Transcription of `SankeyChart.__init__`: all five lists empty. -/
def SankeyChart.new : SankeyChart := ⟨[], [], [], [], []⟩

/-- Auxiliary size of a `VNode`, for the termination measure of the explicit
stack loop. -/
def VNode.size : VNode → Nat
  | .mk _ _ cs _ => 1 + sizeList cs
where
  sizeList : List VNode → Nat
    | [] => 0
    | c :: rest => VNode.size c + sizeList rest

/-- The `while node_stack:` loop of `create_sankey_chart` (`diagram.py`).
Python keeps the stack in a list whose *end* is the top (`append`/`pop`);
here the *head* of the list is the top, so pushing `reversed(children)`
onto the Python stack is pushing the children in order here. -/
def sankey_loop : List (VNode × ℤ × ℚ) → SankeyChart → SankeyChart
  | [], chart => chart
  | (current, parent_idx, current_weight) :: rest, chart =>
      let current_idx : ℤ := chart.node_labels.length
      let chart1 := { chart with
        node_labels := chart.node_labels ++ [current.name],
        node_colors := chart.node_colors ++ [get_color current.node_type] }
      let chart2 :=
        if parent_idx ≠ -1 then
          { chart1 with
            flow_values := chart1.flow_values ++ [current_weight],
            source_indices := chart1.source_indices ++ [parent_idx],
            target_indices := chart1.target_indices ++ [current_idx] }
        else chart1
      sankey_loop
        (current.children.map (fun child =>
          (child, current_idx,
            current_weight *
              current.allocation_group.get_allocation child.name 0 / 100)) ++
          rest)
        chart2
termination_by stack _ => (stack.map (fun e => e.1.size)).sum
decreasing_by
  simp only [List.map_append, List.sum_append, List.map_cons, List.sum_cons,
    List.map_map, Function.comp_def]
  have hcs : ∀ cs : List VNode,
      (cs.map (fun child => VNode.size child)).sum = VNode.size.sizeList cs := by
    intro cs
    induction cs with
    | nil => simp [VNode.size.sizeList]
    | cons c rest ih => simp [VNode.size.sizeList, ih]
  rw [hcs]
  have hlt : VNode.size.sizeList current.children < current.size := by
    cases current with
    | mk n t cs g =>
        simp only [VNode.size, VNode.children]
        omega
  omega

/-- Transcription of `create_sankey_chart` (`diagram.py`): run the stack loop from the given
node with parent index −1 and cumulative weight 100. -/
def create_sankey_chart (node : VNode) : SankeyChart :=
  sankey_loop [(node, -1, 100)] SankeyChart.new

mutual

/-- Specification-side reading of the flow values: the global weights of all
strict descendants of a node, in depth-first preorder.  `node_flows n w`
gives, for each child in order, `w` times the child's local allocation
percentage (0 when absent) divided by 100, followed by that child's own
descendants' weights; started at the root with `w = 100` this is exactly
"100 multiplied, for each step along the root-to-child path, by that step's
local allocation percentage divided by 100". -/
def node_flows : VNode → ℚ → List ℚ
  | .mk _ _ cs g, w => children_flows g w cs

def children_flows : AllocationGroup → ℚ → List VNode → List ℚ
  | _, _, [] => []
  | g, w, c :: rest =>
      (let cw := w * g.get_allocation c.name 0 / 100
       cw :: node_flows c cw) ++ children_flows g w rest

end

/-- Specification-side flow list of a whole entry stack, mirroring the
accumulator discipline of `sankey_loop`: an entry contributes its own weight
(unless it is the initial `-1` root entry) followed by its descendants'
weights. -/
def entries_flows : List (VNode × ℤ × ℚ) → List ℚ
  | [] => []
  | (n, p, w) :: rest =>
      ((if p = -1 then [] else [w]) ++ node_flows n w) ++ entries_flows rest

/-- Per-node dictionary discipline: the children keys are pairwise distinct
(they key a Python dict) and each is its own `strip` (every key was inserted
as `name.strip()`). -/
def childrenOK (d : NodeData) : Prop :=
  (keysOf d.children).Nodup ∧ ∀ k ∈ keysOf d.children, pyStrip k = k

/-- Per-node allocation-ledger discipline: `fixed_items` is a set,
`allocations` is a dict, and every fixed item has an allocation entry
(the `fixedItems ⊆ keys(allocations)` invariant). -/
def groupOK (d : NodeData) : Prop :=
  d.allocation_group.fixed_items.Nodup ∧
  (keysOf d.allocation_group.allocations).Nodup ∧
  ∀ f ∈ d.allocation_group.fixed_items,
    f ∈ keysOf d.allocation_group.allocations

/-- Parent back-reference consistency at one node: every entry
`(name, child)` of its children dict points to a live node whose
`parent_node` is this node and whose `name` is the dict key. -/
def backrefOK (h : Heap) (id : Nat) (d : NodeData) : Prop :=
  ∀ nm cid, (nm, cid) ∈ d.children →
    ∃ cd, h.get cid = some cd ∧ cd.parent_node = some id ∧ cd.name = nm

/-- Heap well-formedness: ids are below the fresh-id counter and pairwise
distinct, and every node satisfies the per-node disciplines. -/
def heapWF (h : Heap) : Prop :=
  (∀ p ∈ h.nodes, p.1 < h.next_id) ∧ (keysOf h.nodes).Nodup ∧
  ∀ p ∈ h.nodes, childrenOK p.2 ∧ groupOK p.2 ∧ backrefOK h p.1 p.2

/-- The spec's §8 scenario: an "ETF category" container with two children
and `VTI` pinned at 70. -/
def c2d : NodeData :=
  { name := "ETF", node_type := .ETF,
    children := [("VTI", 1), ("VXUS", 2)],
    allocation_group := ⟨[("VTI", 70), ("VXUS", 30)], ["VTI"]⟩,
    parent_node := none }

def c2heap : Heap := { nodes := [(0, c2d)], next_id := 10 }

/-- The state of the container after `add_child("BND")` in the §8 scenario:
`BND` gets `(100 − 70) / (3 − 1) = 15`. -/
def c2d' : NodeData :=
  { name := "ETF", node_type := .ETF,
    children := [("VTI", 1), ("VXUS", 2), ("BND", 10)],
    allocation_group := ⟨[("VTI", 70), ("VXUS", 30), ("BND", 15)], ["VTI"]⟩,
    parent_node := none }

def c2new : NodeData :=
  { name := "BND", node_type := .ETF_SYMBOL, children := [],
    allocation_group := ⟨[], []⟩, parent_node := some 0 }

def c2heap' : Heap := { nodes := [(0, c2d'), (10, c2new)], next_id := 11 }

/-- The heap after adding, at the root, a child whose name is the reserved
root identifier itself (the root-category table defaults it to the generic
`OTHER` kind, which is valid for the root). -/
def c3heap : Heap :=
  (add_child specEnv (initHeap ROOT_NAME .ROOT) 0 ROOT_NAME 100).2.2

/-- The child node created by the `c3heap` addition. -/
def c3child : NodeData :=
  { name := ROOT_NAME, node_type := .OTHER, children := [],
    allocation_group := ⟨[], []⟩, parent_node := some 0 }

/-- Specification-side reading of the allocation rule for a newly added
child (spec §4.1), phrased on the parent's state *before* insertion (the
spec counts children *after* insertion, which is one more): the only child
receives the full `parent_weight`; otherwise
`unfixedTotal = 100 − Σ allocations[f] for f in fixedItems` and
`unfixedCount = (#children) − (#fixedItems)`, and the new child receives
`unfixedTotal / unfixedCount` when that count is positive and `0`
otherwise (the spec constrains only the `> 0` and `= 0` cases; `0` is also
produced when the count is negative). -/
def new_child_share (d : NodeData) (parent_weight : ℚ) : ℚ :=
  if d.children.length + 1 = 1 then parent_weight
  else
    let unfixed_total : ℚ :=
      100 - (d.allocation_group.fixed_items.map
        (fun f => (lookupA d.allocation_group.allocations f).getD 0)).sum
    let unfixed_count : ℤ :=
      ((d.children.length + 1 : Nat) : ℤ) -
        (d.allocation_group.fixed_items.length : ℤ)
    if 0 < unfixed_count then unfixed_total / (unfixed_count : ℚ) else 0

/-- The state of the `"ETF"` container node after `add_child("VTI")` on a
fresh node. -/
def c6d : NodeData :=
  { name := "ETF", node_type := .ETF, children := [("VTI", 1)],
    allocation_group := ⟨[("VTI", 100)], []⟩, parent_node := none }

/-- The heap reached from `initHeap "ETF" .ETF` by `add_child("VTI")`. -/
def c6heap : Heap :=
  { nodes := [(0, c6d),
      (1, { name := "VTI", node_type := .ETF_SYMBOL, children := [],
            allocation_group := ⟨[], []⟩, parent_node := some 0 })],
    next_id := 2 }

/-- A container with two children, `VTI` pinned, for exercising
`remove_child`. -/
def c7d : NodeData :=
  { name := "ETF", node_type := .ETF,
    children := [("VTI", 1), ("VXUS", 2)],
    allocation_group := ⟨[("VTI", 70), ("VXUS", 30)], ["VTI"]⟩,
    parent_node := none }

def c7heap : Heap := { nodes := [(0, c7d)], next_id := 5 }

section AssocLemmas

variable {κ α : Type} [DecidableEq κ]

theorem keysOf_nil : keysOf ([] : List (κ × α)) = [] := rfl

theorem keysOf_cons (p : κ × α) (l : List (κ × α)) :
    keysOf (p :: l) = p.1 :: keysOf l := rfl

theorem keysOf_append (l₁ l₂ : List (κ × α)) :
    keysOf (l₁ ++ l₂) = keysOf l₁ ++ keysOf l₂ := by
  simp [keysOf]

theorem lookupA_mem {l : List (κ × α)} {k : κ} {v : α}
    (h : lookupA l k = some v) : (k, v) ∈ l := by
  induction l with
  | nil => simp [lookupA] at h
  | cons p rest ih =>
      obtain ⟨k', v'⟩ := p
      by_cases hk : k' = k
      · subst hk
        simp [lookupA] at h
        simp [h]
      · simp [lookupA, hk] at h
        exact List.mem_cons_of_mem _ (ih h)

theorem mem_keysOf {l : List (κ × α)} {k : κ} (h : k ∈ keysOf l) :
    ∃ v, (k, v) ∈ l := by
  obtain ⟨⟨k', v⟩, hp, hk⟩ := List.mem_map.mp h
  exact ⟨v, by simpa [← hk] using hp⟩

theorem keysOf_of_mem {l : List (κ × α)} {k : κ} {v : α}
    (h : (k, v) ∈ l) : k ∈ keysOf l :=
  List.mem_map.mpr ⟨(k, v), h, rfl⟩

theorem lookupA_eq_none_iff {l : List (κ × α)} {k : κ} :
    lookupA l k = none ↔ k ∉ keysOf l := by
  induction l with
  | nil => simp [lookupA, keysOf_nil]
  | cons p rest ih =>
      obtain ⟨k', v'⟩ := p
      by_cases hk : k' = k
      · subst hk
        simp [lookupA, keysOf_cons]
      · simp [lookupA, hk, keysOf_cons, ih, Ne.symm hk]

theorem lookupA_isSome_iff {l : List (κ × α)} {k : κ} :
    (lookupA l k).isSome = true ↔ k ∈ keysOf l := by
  rcases h : lookupA l k with _ | v
  · simpa [h] using lookupA_eq_none_iff.mp h
  · simp [h]
    exact keysOf_of_mem (lookupA_mem h)

theorem setEntry_of_not_mem {l : List (κ × α)} {k : κ} (v : α)
    (h : k ∉ keysOf l) : setEntry l k v = l ++ [(k, v)] := by
  induction l with
  | nil => simp [setEntry]
  | cons p rest ih =>
      obtain ⟨k', v'⟩ := p
      rw [keysOf_cons, List.mem_cons] at h
      push_neg at h
      have hk : ¬ k' = k := fun he => h.1 he.symm
      simp [setEntry, hk, ih h.2]

theorem lookupA_setEntry_self (l : List (κ × α)) (k : κ) (v : α) :
    lookupA (setEntry l k v) k = some v := by
  induction l with
  | nil => simp [setEntry, lookupA]
  | cons p rest ih =>
      obtain ⟨k', v'⟩ := p
      by_cases hk : k' = k
      · simp [setEntry, hk, lookupA]
      · simp [setEntry, hk, lookupA, ih]

theorem lookupA_setEntry_ne {l : List (κ × α)} {k k' : κ} (v : α)
    (h : k' ≠ k) : lookupA (setEntry l k v) k' = lookupA l k' := by
  induction l with
  | nil =>
      simp only [setEntry, lookupA]
      rw [if_neg (fun he : k = k' => h he.symm)]
  | cons p rest ih =>
      obtain ⟨k₀, v₀⟩ := p
      by_cases hk : k₀ = k
      · subst hk
        simp only [setEntry, if_pos rfl, lookupA]
        rw [if_neg (fun he : k₀ = k' => h he.symm),
          if_neg (fun he : k₀ = k' => h he.symm)]
      · simp [setEntry, hk, lookupA, ih]

theorem mem_setEntry {l : List (κ × α)} {k : κ} {v : α} {p : κ × α}
    (h : p ∈ setEntry l k v) : p = (k, v) ∨ p ∈ l := by
  induction l with
  | nil => simpa [setEntry] using h
  | cons q rest ih =>
      obtain ⟨k₀, v₀⟩ := q
      by_cases hk : k₀ = k
      · subst hk
        simp [setEntry] at h
        rcases h with h | h
        · exact Or.inl h
        · exact Or.inr (List.mem_cons_of_mem _ h)
      · simp [setEntry, hk] at h
        rcases h with h | h
        · exact Or.inr (by simp [h])
        · rcases ih h with h' | h'
          · exact Or.inl h'
          · exact Or.inr (List.mem_cons_of_mem _ h')

theorem keysOf_setEntry_of_mem {l : List (κ × α)} {k : κ} (v : α)
    (h : k ∈ keysOf l) : keysOf (setEntry l k v) = keysOf l := by
  induction l with
  | nil => simp [keysOf_nil] at h
  | cons p rest ih =>
      obtain ⟨k₀, v₀⟩ := p
      by_cases hk : k₀ = k
      · subst hk
        simp [setEntry, keysOf_cons]
      · rw [keysOf_cons, List.mem_cons] at h
        rcases h with h | h
        · exact absurd h.symm hk
        · simp only [setEntry, hk, if_false, keysOf_cons]
          rw [ih h]

theorem mem_keysOf_setEntry {l : List (κ × α)} {k k' : κ} {v : α}
    (h : k' ∈ keysOf (setEntry l k v)) : k' = k ∨ k' ∈ keysOf l := by
  obtain ⟨w, hw⟩ := mem_keysOf h
  rcases mem_setEntry hw with h' | h'
  · exact Or.inl (by simpa using congrArg Prod.fst h')
  · exact Or.inr (keysOf_of_mem h')

theorem mem_keysOf_setEntry_of_mem {l : List (κ × α)} {k k' : κ} (v : α)
    (h : k' ∈ keysOf l) : k' ∈ keysOf (setEntry l k v) := by
  by_cases hmem : k ∈ keysOf l
  · rw [keysOf_setEntry_of_mem v hmem]; exact h
  · rw [setEntry_of_not_mem v hmem, keysOf_append]
    exact List.mem_append_left _ h

theorem nodup_keysOf_setEntry {l : List (κ × α)} {k : κ} (v : α)
    (h : (keysOf l).Nodup) : (keysOf (setEntry l k v)).Nodup := by
  by_cases hmem : k ∈ keysOf l
  · rwa [keysOf_setEntry_of_mem v hmem]
  · rw [setEntry_of_not_mem v hmem, keysOf_append]
    simp only [keysOf_cons, keysOf_nil]
    rw [List.nodup_append]
    exact ⟨h, List.nodup_singleton k,
      fun a ha hb => hmem ((List.mem_singleton.mp hb) ▸ ha)⟩

theorem mem_eraseKey {l : List (κ × α)} {k : κ} {p : κ × α}
    (h : p ∈ eraseKey l k) : p ∈ l := by
  induction l with
  | nil => simpa [eraseKey] using h
  | cons q rest ih =>
      obtain ⟨k₀, v₀⟩ := q
      by_cases hk : k₀ = k
      · subst hk
        simp [eraseKey] at h
        exact List.mem_cons_of_mem _ h
      · simp [eraseKey, hk] at h
        rcases h with h | h
        · simp [h]
        · exact List.mem_cons_of_mem _ (ih h)

theorem keysOf_eraseKey_sublist (l : List (κ × α)) (k : κ) :
    (keysOf (eraseKey l k)).Sublist (keysOf l) := by
  induction l with
  | nil => simp [eraseKey, keysOf_nil]
  | cons q rest ih =>
      obtain ⟨k₀, v₀⟩ := q
      by_cases hk : k₀ = k
      · subst hk
        simp only [eraseKey, if_pos rfl, keysOf_cons]
        exact List.sublist_cons_self _ _
      · simp only [eraseKey, hk, if_false, keysOf_cons]
        exact List.Sublist.cons₂ _ ih

theorem lookupA_eraseKey_self {l : List (κ × α)} {k : κ}
    (h : (keysOf l).Nodup) : lookupA (eraseKey l k) k = none := by
  induction l with
  | nil => simp [eraseKey, lookupA]
  | cons q rest ih =>
      obtain ⟨k₀, v₀⟩ := q
      rw [keysOf_cons, List.nodup_cons] at h
      by_cases hk : k₀ = k
      · subst hk
        simp only [eraseKey, if_pos rfl]
        exact lookupA_eq_none_iff.mpr h.1
      · simp [eraseKey, hk, lookupA, ih h.2]

theorem lookupA_eraseKey_ne {l : List (κ × α)} {k k' : κ}
    (h : k' ≠ k) : lookupA (eraseKey l k) k' = lookupA l k' := by
  induction l with
  | nil => simp [eraseKey]
  | cons q rest ih =>
      obtain ⟨k₀, v₀⟩ := q
      by_cases hk : k₀ = k
      · subst hk
        have he : eraseKey ((k₀, v₀) :: rest) k₀ = rest := by simp [eraseKey]
        rw [he]
        simp only [lookupA]
        rw [if_neg (fun he₂ : k₀ = k' => h he₂.symm)]
      · simp [eraseKey, hk, lookupA, ih]

theorem mem_keysOf_eraseKey_of_ne {l : List (κ × α)} {k k' : κ}
    (hne : k' ≠ k) (h : k' ∈ keysOf l) : k' ∈ keysOf (eraseKey l k) := by
  induction l with
  | nil => simp [keysOf_nil] at h
  | cons q rest ih =>
      obtain ⟨k₀, v₀⟩ := q
      rw [keysOf_cons, List.mem_cons] at h
      by_cases hk : k₀ = k
      · subst hk
        rcases h with h | h
        · exact absurd h hne
        · simpa [eraseKey] using h
      · simp only [eraseKey, hk, if_false, keysOf_cons, List.mem_cons]
        rcases h with h | h
        · exact Or.inl h
        · exact Or.inr (ih h)

theorem lookupA_append_left {l₁ l₂ : List (κ × α)} {k : κ} {v : α}
    (h : lookupA l₁ k = some v) : lookupA (l₁ ++ l₂) k = some v := by
  induction l₁ with
  | nil => simp [lookupA] at h
  | cons q rest ih =>
      obtain ⟨k₀, v₀⟩ := q
      by_cases hk : k₀ = k
      · subst hk
        simp [lookupA] at h ⊢
        exact h
      · simp [lookupA, hk] at h ⊢
        exact ih h

theorem lookupA_append_right {l₁ l₂ : List (κ × α)} {k : κ}
    (h : k ∉ keysOf l₁) : lookupA (l₁ ++ l₂) k = lookupA l₂ k := by
  induction l₁ with
  | nil => simp
  | cons q rest ih =>
      obtain ⟨k₀, v₀⟩ := q
      rw [keysOf_cons, List.mem_cons] at h
      push_neg at h
      have hk : ¬ k₀ = k := fun he => h.1 he.symm
      simp [lookupA, hk, ih h.2]

end AssocLemmas

section StripLemmas

variable {α : Type}

theorem dropWhile_append_eq (p : α → Bool) :
    ∀ l : List α, ∃ t, l = t ++ l.dropWhile p := by
  intro l
  induction l with
  | nil => exact ⟨[], rfl⟩
  | cons a l ih =>
      by_cases ha : p a
      · obtain ⟨t, ht⟩ := ih
        refine ⟨a :: t, ?_⟩
        rw [List.dropWhile_cons_of_pos ha]
        exact congrArg (a :: ·) ht
      · exact ⟨[], by rw [List.dropWhile_cons_of_neg ha]; rfl⟩

theorem dropWhile_head_false {p : α → Bool} :
    ∀ {l : List α} {a : α} {t : List α}, l.dropWhile p = a :: t → p a = false := by
  intro l
  induction l with
  | nil => intro a t h; simp at h
  | cons b l ih =>
      intro a t h
      by_cases hb : p b
      · rw [List.dropWhile_cons_of_pos hb] at h
        exact ih h
      · rw [List.dropWhile_cons_of_neg hb] at h
        cases h
        simpa using hb

theorem dropWhile_cons_false {p : α → Bool} {a : α} (h : p a = false)
    (t : List α) : (a :: t).dropWhile p = a :: t :=
  List.dropWhile_cons_of_neg (by simp [h])

theorem dropWhile_idem (p : α → Bool) (l : List α) :
    (l.dropWhile p).dropWhile p = l.dropWhile p := by
  rcases hd : l.dropWhile p with _ | ⟨a, t⟩
  · simp
  · exact dropWhile_cons_false (dropWhile_head_false hd) t

theorem strip_no_leading (l : List Char) :
    (stripChars l).dropWhile Char.isWhitespace = stripChars l := by
  obtain ⟨t₀, ht₀⟩ :=
    dropWhile_append_eq Char.isWhitespace (l.dropWhile Char.isWhitespace).reverse
  show ((l.dropWhile Char.isWhitespace).reverse.dropWhile
      Char.isWhitespace).reverse.dropWhile Char.isWhitespace = _
  rcases hrev : ((l.dropWhile Char.isWhitespace).reverse.dropWhile
      Char.isWhitespace).reverse with _ | ⟨c, u⟩
  · rw [List.dropWhile_nil, stripChars]
    exact hrev.symm
  · have hy : l.dropWhile Char.isWhitespace = c :: (u ++ t₀.reverse) := by
      have hrec := congrArg List.reverse ht₀
      rw [List.reverse_reverse, List.reverse_append] at hrec
      rw [hrev] at hrec
      simpa using hrec
    have hc : Char.isWhitespace c = false := dropWhile_head_false hy
    rw [dropWhile_cons_false hc u, stripChars]
    exact hrev.symm

theorem strip_rev_no_leading (l : List Char) :
    (stripChars l).reverse.dropWhile Char.isWhitespace = (stripChars l).reverse := by
  show (((l.dropWhile Char.isWhitespace).reverse.dropWhile
      Char.isWhitespace).reverse.reverse).dropWhile Char.isWhitespace = _
  rw [List.reverse_reverse]
  rw [dropWhile_idem]
  rw [stripChars]
  rw [List.reverse_reverse]

theorem stripChars_idem (l : List Char) :
    stripChars (stripChars l) = stripChars l := by
  show (((stripChars l).dropWhile Char.isWhitespace).reverse.dropWhile
      Char.isWhitespace).reverse = stripChars l
  rw [strip_no_leading, strip_rev_no_leading, List.reverse_reverse]

theorem pyStrip_idem (s : String) : pyStrip (pyStrip s) = pyStrip s := by
  unfold pyStrip
  rw [show (String.mk (stripChars s.data)).data = stripChars s.data from rfl]
  rw [stripChars_idem]

end StripLemmas

section HeapLemmas

theorem get_set_self (h : Heap) (id : Nat) (d : NodeData) :
    (h.set id d).get id = some d :=
  lookupA_setEntry_self _ _ _

theorem get_set_ne (h : Heap) (id j : Nat) (d : NodeData) (hne : j ≠ id) :
    (h.set id d).get j = h.get j :=
  lookupA_setEntry_ne _ hne

theorem next_id_not_mem (h : Heap)
    (hb : ∀ p ∈ h.nodes, p.1 < h.next_id) : h.next_id ∉ keysOf h.nodes := by
  intro hm
  obtain ⟨v, hv⟩ := mem_keysOf hm
  exact absurd (hb _ hv) (lt_irrefl _)

theorem get_add_heap (h : Heap) (id : Nat) (d d' nn : NodeData)
    (hid : h.get id = some d) (hb : ∀ p ∈ h.nodes, p.1 < h.next_id) (j : Nat) :
    (Heap.mk (setEntry (h.nodes ++ [(h.next_id, nn)]) id d')
        (h.next_id + 1)).get j =
      if j = id then some d' else if j = h.next_id then some nn else h.get j := by
  by_cases hji : j = id
  · subst hji
    rw [if_pos rfl]
    exact lookupA_setEntry_self _ _ _
  · rw [if_neg hji]
    show lookupA (setEntry _ id d') j = _
    rw [lookupA_setEntry_ne _ hji]
    by_cases hjc : j = h.next_id
    · subst hjc
      rw [if_pos rfl, lookupA_append_right (next_id_not_mem h hb)]
      simp [lookupA]
    · rw [if_neg hjc]
      rcases hl : h.get j with _ | v
      · rw [lookupA_append_right (lookupA_eq_none_iff.mp hl)]
        simp only [lookupA]
        rw [if_neg (fun he : h.next_id = j => hjc he.symm)]
      · exact lookupA_append_left hl

end HeapLemmas

section NodeOpLemmas

theorem init_child_alloc_spec (d : NodeData) (n : String) (w : ℚ) :
    ∃ v, initialize_child_allocation d n w =
      { d with allocation_group := d.allocation_group.update_allocation n v } := by
  unfold initialize_child_allocation
  simp only [AllocationGroup.toBool, if_true]
  split_ifs
  · exact ⟨w, rfl⟩
  · exact ⟨_, rfl⟩
  · exact ⟨0, rfl⟩

theorem add_child_success_eq (env : Env) (h : Heap) (id : Nat) (d : NodeData)
    (name : String) (w : ℚ) (nt : NodeType)
    (hget : h.get id = some d)
    (hg1 : ¬ (pyStrip name = "" ∨ (lookupA d.children (pyStrip name)).isSome))
    (hg2 : env.can_have_children d.node_type = true)
    (hdet : determine_child_type env d (pyStrip name) = some nt) :
    add_child env h id name w =
      (some h.next_id, "",
        Heap.mk
          (setEntry (h.nodes ++ [(h.next_id,
            { name := pyStrip name, node_type := nt, children := [],
              allocation_group := ⟨[], []⟩, parent_node := some id })]) id
            (initialize_child_allocation
              { d with children := setEntry d.children (pyStrip name) h.next_id }
              (pyStrip name) w))
          (h.next_id + 1)) := by
  unfold add_child
  rw [hget]
  simp only [hg2, hdet, if_neg hg1, not_true, if_false]

theorem add_child_heap_cases (env : Env) (h : Heap) (id : Nat) (name : String)
    (w : ℚ) :
    (add_child env h id name w).2.2 = h ∨
    ∃ d nt, h.get id = some d ∧
      ¬ (pyStrip name = "" ∨ (lookupA d.children (pyStrip name)).isSome) ∧
      env.can_have_children d.node_type = true ∧
      determine_child_type env d (pyStrip name) = some nt ∧
      (add_child env h id name w).2.2 =
        Heap.mk
          (setEntry (h.nodes ++ [(h.next_id,
            { name := pyStrip name, node_type := nt, children := [],
              allocation_group := ⟨[], []⟩, parent_node := some id })]) id
            (initialize_child_allocation
              { d with children := setEntry d.children (pyStrip name) h.next_id }
              (pyStrip name) w))
          (h.next_id + 1) := by
  rcases hget : h.get id with _ | d
  · left
    unfold add_child
    rw [hget]
  · by_cases hg1 : pyStrip name = "" ∨ (lookupA d.children (pyStrip name)).isSome
    · left
      unfold add_child
      rw [hget]
      simp only [if_pos hg1]
    · by_cases hg2 : env.can_have_children d.node_type = true
      · rcases hdet : determine_child_type env d (pyStrip name) with _ | nt
        · left
          unfold add_child
          rw [hget]
          simp only [hg2, hdet, if_neg hg1, not_true, if_false]
        · right
          exact ⟨d, nt, rfl, hg1, hg2, hdet, by
            rw [add_child_success_eq env h id d name w nt hget hg1 hg2 hdet]⟩
      · left
        unfold add_child
        rw [hget]
        have hg2' : env.can_have_children d.node_type = false := by
          simpa using hg2
        simp [hg1, hg2']

theorem remove_child_heap_cases (h : Heap) (id : Nat) (name : String) :
    (remove_child h id name).2 = h ∨
    ∃ d d', h.get id = some d ∧ (lookupA d.children name).isSome = true ∧
      d'.children = eraseKey d.children name ∧
      d'.name = d.name ∧ d'.node_type = d.node_type ∧
      d'.parent_node = d.parent_node ∧
      d'.allocation_group.allocations =
        (if (lookupA d.allocation_group.allocations name).isSome then
          eraseKey d.allocation_group.allocations name
        else d.allocation_group.allocations) ∧
      d'.allocation_group.fixed_items =
        (if name ∈ d.allocation_group.fixed_items then
          d.allocation_group.fixed_items.erase name
        else d.allocation_group.fixed_items) ∧
      (remove_child h id name).2 = h.set id d' := by
  rcases hget : h.get id with _ | d
  · left
    unfold remove_child
    rw [hget]
  · by_cases habs : (lookupA d.children name).isNone
    · left
      unfold remove_child
      rw [hget]
      simp only [if_pos habs]
    · right
      have hsome : (lookupA d.children name).isSome = true := by
        rcases hl : lookupA d.children name with _ | v
        · rw [hl] at habs; simp at habs
        · simp
      refine ⟨d,
        { name := d.name, node_type := d.node_type,
          children := eraseKey d.children name,
          allocation_group :=
            ⟨(if (lookupA d.allocation_group.allocations name).isSome then
                eraseKey d.allocation_group.allocations name
              else d.allocation_group.allocations),
             (if name ∈ d.allocation_group.fixed_items then
                d.allocation_group.fixed_items.erase name
              else d.allocation_group.fixed_items)⟩,
          parent_node := d.parent_node },
        rfl, hsome, rfl, rfl, rfl, rfl, rfl, rfl, ?_⟩
      unfold remove_child
      rw [hget]
      simp only [if_neg habs, AllocationGroup.toBool, if_true]
      by_cases hA : (lookupA d.allocation_group.allocations name).isSome
      · by_cases hF : name ∈ d.allocation_group.fixed_items
        · simp [hA, hF, Heap.set]
        · simp [hA, hF, Heap.set]
      · by_cases hF : name ∈ d.allocation_group.fixed_items
        · simp [hA, hF, Heap.set]
        · simp [hA, hF, Heap.set]

end NodeOpLemmas

section WFLemmas

theorem heapWF_initHeap (name : String) (t : NodeType) :
    heapWF (initHeap name t) := by
  refine ⟨?_, ?_, ?_⟩
  · intro p hp
    simp only [initHeap, List.mem_singleton] at hp
    subst hp
    exact Nat.lt_succ_self 0
  · simp [initHeap, keysOf_cons, keysOf_nil]
  · intro p hp
    simp only [initHeap, List.mem_singleton] at hp
    subst hp
    refine ⟨⟨List.nodup_nil, ?_⟩, ⟨List.nodup_nil, List.nodup_nil, ?_⟩, ?_⟩
    · intro k hk
      simp [NodeData.new, keysOf_nil] at hk
    · intro f hf
      simp [NodeData.new] at hf
    · intro nm cid hq
      simp [NodeData.new] at hq

theorem heapWF_add (env : Env) (h : Heap) (id : Nat) (name : String) (w : ℚ)
    (hwf : heapWF h) : heapWF (add_child env h id name w).2.2 := by
  rcases add_child_heap_cases env h id name w with
    hcase | ⟨d, nt, hget, hg1, hg2, hdet, hcase⟩
  · rwa [hcase]
  rw [hcase]
  obtain ⟨hb, hnd, hok⟩ := hwf
  obtain ⟨hcd, hgd, hbd⟩ := hok _ (lookupA_mem hget)
  have hidk : id ∈ keysOf h.nodes := keysOf_of_mem (lookupA_mem hget)
  have hidlt : id < h.next_id := hb _ (lookupA_mem hget)
  have hcid_notin : h.next_id ∉ keysOf h.nodes := next_id_not_mem h hb
  push_neg at hg1
  have hclean_notin : pyStrip name ∉ keysOf d.children := by
    intro hm
    exact hg1.2 (lookupA_isSome_iff.mpr hm)
  obtain ⟨v, hv⟩ := init_child_alloc_spec
    { d with children := setEntry d.children (pyStrip name) h.next_id }
    (pyStrip name) w
  set nn : NodeData :=
    { name := pyStrip name, node_type := nt, children := [],
      allocation_group := ⟨[], []⟩, parent_node := some id } with hnn
  set d' := initialize_child_allocation
    { d with children := setEntry d.children (pyStrip name) h.next_id }
    (pyStrip name) w with hd'def
  have hd'c : d'.children = setEntry d.children (pyStrip name) h.next_id := by
    rw [hv]
  have hd'n : d'.name = d.name := by rw [hv]
  have hd'p : d'.parent_node = d.parent_node := by rw [hv]
  have hd'f : d'.allocation_group.fixed_items =
      d.allocation_group.fixed_items := by
    rw [hv, AllocationGroup.update_allocation]
  have hd'a : d'.allocation_group.allocations =
      setEntry d.allocation_group.allocations (pyStrip name) v := by
    rw [hv, AllocationGroup.update_allocation]
  have hget' : ∀ j,
      (Heap.mk (setEntry (h.nodes ++ [(h.next_id, nn)]) id d')
        (h.next_id + 1)).get j =
      if j = id then some d'
      else if j = h.next_id then some nn else h.get j :=
    get_add_heap h id d d' nn hget hb
  refine ⟨?_, ?_, ?_⟩
  · intro p hp
    rcases mem_setEntry hp with rfl | hp'
    · exact Nat.lt_succ_of_lt hidlt
    · rcases List.mem_append.mp hp' with hp₂ | hp₂
      · exact Nat.lt_succ_of_lt (hb _ hp₂)
      · rw [List.mem_singleton] at hp₂
        subst hp₂
        exact Nat.lt_succ_self _
  · show (keysOf (setEntry (h.nodes ++ [(h.next_id, nn)]) id d')).Nodup
    have hidk2 : id ∈ keysOf (h.nodes ++ [(h.next_id, nn)]) := by
      rw [keysOf_append]
      exact List.mem_append_left _ hidk
    rw [keysOf_setEntry_of_mem _ hidk2, keysOf_append]
    simp only [keysOf_cons, keysOf_nil]
    rw [List.nodup_append]
    exact ⟨hnd, List.nodup_singleton _,
      fun a ha hb2 => hcid_notin ((List.mem_singleton.mp hb2) ▸ ha)⟩
  · intro p hp
    rcases mem_setEntry hp with rfl | hp'
    · refine ⟨⟨?_, ?_⟩, ⟨?_, ?_, ?_⟩, ?_⟩
      · rw [hd'c]
        exact nodup_keysOf_setEntry _ hcd.1
      · intro k hk
        rw [hd'c] at hk
        rcases mem_keysOf_setEntry hk with rfl | hk'
        · exact pyStrip_idem name
        · exact hcd.2 _ hk'
      · rw [hd'f]; exact hgd.1
      · rw [hd'a]; exact nodup_keysOf_setEntry _ hgd.2.1
      · intro f hf
        rw [hd'f] at hf
        rw [hd'a]
        exact mem_keysOf_setEntry_of_mem _ (hgd.2.2 f hf)
      · intro nm cid hq
        rw [hd'c] at hq
        rcases mem_setEntry hq with heq | hq'
        · cases heq
          refine ⟨nn, ?_, ?_, ?_⟩
          · rw [hget' h.next_id, if_neg (by omega : ¬ h.next_id = id),
              if_pos rfl]
          · rw [hnn]
          · rw [hnn]
        · obtain ⟨cd, hcd₂, hpar, hnm⟩ := hbd nm cid hq'
          have hqlt : cid < h.next_id := hb _ (lookupA_mem hcd₂)
          by_cases hqid : cid = id
          · have hcdd : cd = d := by
              rw [hqid, hget] at hcd₂
              exact (Option.some.inj hcd₂).symm
            refine ⟨d', ?_, ?_, ?_⟩
            · rw [hget' cid, if_pos hqid]
            · rw [hd'p]; exact hcdd ▸ hpar
            · rw [hd'n]; exact hcdd ▸ hnm
          · refine ⟨cd, ?_, hpar, hnm⟩
            rw [hget' cid, if_neg hqid, if_neg (by omega : ¬ cid = h.next_id)]
            exact hcd₂
    · rcases List.mem_append.mp hp' with hp₂ | hp₂
      · obtain ⟨hcp, hgp, hbp⟩ := hok _ hp₂
        refine ⟨hcp, hgp, ?_⟩
        intro nm cid hq
        obtain ⟨cd, hcd₂, hpar, hnm⟩ := hbp nm cid hq
        have hqlt : cid < h.next_id := hb _ (lookupA_mem hcd₂)
        by_cases hqid : cid = id
        · have hcdd : cd = d := by
            rw [hqid, hget] at hcd₂
            exact (Option.some.inj hcd₂).symm
          refine ⟨d', ?_, ?_, ?_⟩
          · rw [hget' cid, if_pos hqid]
          · rw [hd'p]; exact hcdd ▸ hpar
          · rw [hd'n]; exact hcdd ▸ hnm
        · refine ⟨cd, ?_, hpar, hnm⟩
          rw [hget' cid, if_neg hqid, if_neg (by omega : ¬ cid = h.next_id)]
          exact hcd₂
      · rw [List.mem_singleton] at hp₂
        subst hp₂
        refine ⟨⟨?_, ?_⟩, ⟨?_, ?_, ?_⟩, ?_⟩
        · rw [hnn]; exact List.nodup_nil
        · rw [hnn]; intro k hk; simp [keysOf_nil] at hk
        · rw [hnn]; exact List.nodup_nil
        · rw [hnn]; exact List.nodup_nil
        · rw [hnn]; intro f hf; simp at hf
        · rw [hnn]; intro nm cid hq; simp at hq

theorem heapWF_rem (h : Heap) (id : Nat) (name : String)
    (hwf : heapWF h) : heapWF (remove_child h id name).2 := by
  rcases remove_child_heap_cases h id name with
    hcase | ⟨d, d', hget, hsome, hc, hn, ht, hp, ha, hf, hcase⟩
  · rwa [hcase]
  rw [hcase]
  obtain ⟨hb, hnd, hok⟩ := hwf
  obtain ⟨hcd, hgd, hbd⟩ := hok _ (lookupA_mem hget)
  have hidk : id ∈ keysOf h.nodes := keysOf_of_mem (lookupA_mem hget)
  have hidlt : id < h.next_id := hb _ (lookupA_mem hget)
  have hget' : ∀ j, (h.set id d').get j =
      if j = id then some d' else h.get j := by
    intro j
    by_cases hj : j = id
    · subst hj; rw [if_pos rfl]; exact get_set_self h j d'
    · rw [if_neg hj]; exact get_set_ne h id j d' hj
  refine ⟨?_, ?_, ?_⟩
  · intro p hp₀
    rcases mem_setEntry hp₀ with rfl | hp'
    · exact hidlt
    · exact hb _ hp'
  · show (keysOf (setEntry h.nodes id d')).Nodup
    rw [keysOf_setEntry_of_mem _ hidk]
    exact hnd
  · intro p hp₀
    rcases mem_setEntry hp₀ with rfl | hp'
    · refine ⟨⟨?_, ?_⟩, ⟨?_, ?_, ?_⟩, ?_⟩
      · rw [hc]
        exact List.Nodup.sublist (keysOf_eraseKey_sublist d.children name) hcd.1
      · intro k hk
        rw [hc] at hk
        exact hcd.2 _ ((keysOf_eraseKey_sublist d.children name).subset hk)
      · rw [hf]
        split_ifs
        · exact hgd.1.erase _
        · exact hgd.1
      · rw [ha]
        split_ifs
        · exact List.Nodup.sublist
            (keysOf_eraseKey_sublist d.allocation_group.allocations name)
            hgd.2.1
        · exact hgd.2.1
      · intro f hfm
        rw [hf] at hfm
        rw [ha]
        by_cases hmem : name ∈ d.allocation_group.fixed_items
        · rw [if_pos hmem] at hfm
          have hiff := (List.Nodup.mem_erase_iff hgd.1).mp hfm
          split_ifs with hA
          · exact mem_keysOf_eraseKey_of_ne hiff.1 (hgd.2.2 f hiff.2)
          · exact hgd.2.2 f hiff.2
        · rw [if_neg hmem] at hfm
          have hfne : f ≠ name := fun he => hmem (he ▸ hfm)
          split_ifs with hA
          · exact mem_keysOf_eraseKey_of_ne hfne (hgd.2.2 f hfm)
          · exact hgd.2.2 f hfm
      · intro nm cid hq
        rw [hc] at hq
        obtain ⟨cd, hcd₂, hpar, hnm⟩ := hbd nm cid (mem_eraseKey hq)
        by_cases hcidid : cid = id
        · have hcdd : cd = d := by
            rw [hcidid, hget] at hcd₂
            exact (Option.some.inj hcd₂).symm
          refine ⟨d', ?_, ?_, ?_⟩
          · rw [hget' cid, if_pos hcidid]
          · rw [hp]; exact hcdd ▸ hpar
          · rw [hn]; exact hcdd ▸ hnm
        · refine ⟨cd, ?_, hpar, hnm⟩
          rw [hget' cid, if_neg hcidid]
          exact hcd₂
    · obtain ⟨hcp, hgp, hbp⟩ := hok _ hp'
      refine ⟨hcp, hgp, ?_⟩
      intro nm cid hq
      obtain ⟨cd, hcd₂, hpar, hnm⟩ := hbp nm cid hq
      by_cases hcidid : cid = id
      · have hcdd : cd = d := by
          rw [hcidid, hget] at hcd₂
          exact (Option.some.inj hcd₂).symm
        refine ⟨d', ?_, ?_, ?_⟩
        · rw [hget' cid, if_pos hcidid]
        · rw [hp]; exact hcdd ▸ hpar
        · rw [hn]; exact hcdd ▸ hnm
      · refine ⟨cd, ?_, hpar, hnm⟩
        rw [hget' cid, if_neg hcidid]
        exact hcd₂

theorem heapWF_applyOp (env : Env) (h : Heap) (op : Op)
    (hwf : heapWF h) : heapWF (applyOp env h op) := by
  cases op with
  | add t n w => exact heapWF_add env h t n w hwf
  | rem t n => exact heapWF_rem h t n hwf

theorem heapWF_run (env : Env) (h : Heap) (ops : List Op)
    (hwf : heapWF h) : heapWF (run env h ops) := by
  induction ops generalizing h with
  | nil => exact hwf
  | cons op rest ih => exact ih _ (heapWF_applyOp env h op hwf)

end WFLemmas

section ShareLemmas

theorem init_child_alloc_value (d : NodeData) (cleaned : String) (cid : Nat)
    (w : ℚ) (hnotin : cleaned ∉ keysOf d.children) :
    initialize_child_allocation
      { d with children := setEntry d.children cleaned cid } cleaned w =
    { d with children := setEntry d.children cleaned cid,
             allocation_group :=
               d.allocation_group.update_allocation cleaned
                 (new_child_share d w) } := by
  unfold initialize_child_allocation new_child_share
  have hlen : (setEntry d.children cleaned cid).length = d.children.length + 1 := by
    rw [setEntry_of_not_mem _ hnotin, List.length_append, List.length_singleton]
  simp only [AllocationGroup.toBool, if_true, hlen]
  split_ifs <;> rfl

end ShareLemmas

section SankeyLemmas

theorem sizeList_eq_sum (cs : List VNode) :
    VNode.size.sizeList cs = (cs.map VNode.size).sum := by
  induction cs with
  | nil => simp [VNode.size.sizeList]
  | cons c rest ih => simp [VNode.size.sizeList, ih]

theorem node_flows_eq (n : VNode) (w : ℚ) :
    node_flows n w = children_flows n.allocation_group w n.children := by
  cases n with
  | mk nm t cs g => simp [node_flows, VNode.children, VNode.allocation_group]

theorem entries_flows_append (l₁ l₂ : List (VNode × ℤ × ℚ)) :
    entries_flows (l₁ ++ l₂) = entries_flows l₁ ++ entries_flows l₂ := by
  induction l₁ with
  | nil => simp [entries_flows]
  | cons e rest ih =>
      obtain ⟨n, p, w⟩ := e
      simp [entries_flows, ih]

theorem entries_flows_children (g : AllocationGroup) (w : ℚ) (idx : ℤ)
    (hidx : ¬ idx = -1) (cs : List VNode) :
    entries_flows (cs.map (fun child =>
      (child, idx, w * g.get_allocation child.name 0 / 100))) =
    children_flows g w cs := by
  induction cs with
  | nil => simp [entries_flows, children_flows]
  | cons c rest ih => simp [entries_flows, children_flows, hidx, ih]

theorem vnode_name_mk (nm : String) (t : NodeType) (cs : List VNode)
    (g : AllocationGroup) : (VNode.mk nm t cs g).name = nm := rfl

theorem vnode_type_mk (nm : String) (t : NodeType) (cs : List VNode)
    (g : AllocationGroup) : (VNode.mk nm t cs g).node_type = t := rfl

theorem vnode_children_mk (nm : String) (t : NodeType) (cs : List VNode)
    (g : AllocationGroup) : (VNode.mk nm t cs g).children = cs := rfl

theorem vnode_group_mk (nm : String) (t : NodeType) (cs : List VNode)
    (g : AllocationGroup) : (VNode.mk nm t cs g).allocation_group = g := rfl

theorem sankey_loop_flows :
    ∀ (N : Nat) (stack : List (VNode × ℤ × ℚ)) (chart : SankeyChart),
    (stack.map (fun e => e.1.size)).sum = N →
    (sankey_loop stack chart).flow_values =
      chart.flow_values ++ entries_flows stack := by
  intro N
  induction N using Nat.strong_induction_on with
  | _ N ih =>
      intro stack chart hN
      cases stack with
      | nil => simp [sankey_loop, entries_flows]
      | cons e rest =>
          obtain ⟨cur, pidx, w⟩ := e
          cases cur with
          | mk nm t cs g =>
              rw [sankey_loop]
              simp only [vnode_name_mk, vnode_type_mk, vnode_children_mk,
                vnode_group_mk]
              have hm : (((cs.map (fun child =>
                  (child, (chart.node_labels.length : ℤ),
                    w * g.get_allocation child.name 0 / 100))) ++ rest).map
                    (fun e => e.1.size)).sum < N := by
                rw [← hN]
                simp only [List.map_append, List.sum_append, List.map_map,
                  Function.comp_def, List.map_cons, List.sum_cons]
                have hsz : (VNode.mk nm t cs g).size =
                    1 + (List.map (fun x : VNode => x.size) cs).sum := by
                  show 1 + VNode.size.sizeList cs = _
                  rw [sizeList_eq_sum]
                omega
              by_cases hp : pidx = -1
              · rw [if_neg (by simpa using hp)]
                rw [ih _ hm _ _ rfl]
                rw [entries_flows_append]
                rw [entries_flows_children g w _ (by omega) cs]
                simp [entries_flows, hp, node_flows]
              · rw [if_pos hp]
                rw [ih _ hm _ _ rfl]
                rw [entries_flows_append]
                rw [entries_flows_children g w _ (by omega) cs]
                simp [entries_flows, hp, node_flows]

end SankeyLemmas

section PathLemmas

theorem joinPath_append (xs : List String) (hne : xs ≠ []) (n : String) :
    joinPath (xs ++ [n]) = joinPath xs ++ " -> " ++ n := by
  induction xs with
  | nil => exact absurd rfl hne
  | cons x rest ih =>
      cases rest with
      | nil => simp [joinPath]
      | cons y t =>
          have hrec := ih (by simp)
          simp only [List.cons_append] at hrec ⊢
          rw [joinPath, hrec, joinPath]
          simp [String.append_assoc]

theorem names_from_root_ne_nil (u : UpNode) : names_from_root u ≠ [] := by
  cases u with
  | orphan n => simp [names_from_root]
  | child n p => simp [names_from_root]

end PathLemmas

section Claims

/-- Claim C1, counterexample to the sum clause: on a fresh `"ETF"` container,
`add_child("VTI")` then `add_child("VXUS")` leaves the stored percentages at
`{VTI: 100, VXUS: 50}` — the group is non-empty (two entries) and the sum is
150, not 100 (exactly the spec's §8 documented run). -/
theorem allocation_sum_counterexample :
    ((run specEnv (initHeap "ETF" .ETF)
        [Op.add 0 "VTI" 100, Op.add 0 "VXUS" 100]).get 0).map
      (fun d => ((d.allocation_group.allocations.map Prod.snd).sum,
        d.allocation_group.allocations.length)) = some (150, 2) ∧
    (150 : ℚ) ≠ 100 := by
  constructor
  · with_unfolding_all rfl
  · norm_num

/-- Claim C1 (amended): starting from any well-formed heap (in particular a
freshly constructed node) and applying any sequence of `add_child` and
`remove_child` operations, every node's `fixed_items` is a subset of the
keys of its `allocations`; the sum-to-100 clause of the original claim is
refuted by `allocation_sum_counterexample`. -/
theorem allocation_fixed_subset_invariant (env : Env) (h : Heap)
    (ops : List Op) (hwf : heapWF h) (id : Nat) (d : NodeData)
    (hget : (run env h ops).get id = some d) :
    ∀ f ∈ d.allocation_group.fixed_items,
      f ∈ keysOf d.allocation_group.allocations :=
  ((heapWF_run env h ops hwf).2.2 _ (lookupA_mem hget)).2.1.2.2

/-- Witness for `allocation_fixed_subset_invariant` at a concrete run. -/
theorem allocation_fixed_subset_invariant_witness :
    heapWF (initHeap "ETF" .ETF) ∧
    (run specEnv (initHeap "ETF" .ETF) [Op.add 0 "VTI" 100]).get 0 =
      some c6d ∧
    ∀ f ∈ c6d.allocation_group.fixed_items,
      f ∈ keysOf c6d.allocation_group.allocations :=
  ⟨heapWF_initHeap _ _, by with_unfolding_all rfl,
   allocation_fixed_subset_invariant specEnv (initHeap "ETF" .ETF)
     [Op.add 0 "VTI" 100] (heapWF_initHeap _ _) 0 c6d
     (by with_unfolding_all rfl)⟩

/-- Claim C2: when `add_child` succeeds on a node whose fixed items all have
allocation entries, the new child's allocation entry (under the trimmed
name) is exactly the spec's share `new_child_share` — full `parent_weight`
for an only child, else the equal share of the unfixed remainder (0 when no
unfixed slot remains) — and no other allocation entry or the fixed set of
the node is modified. -/
theorem add_child_share_rule (env : Env) (h : Heap) (id : Nat) (d : NodeData)
    (name : String) (w : ℚ) (cid : Nat) (h' : Heap)
    (hget : h.get id = some d)
    (hfix : ∀ f ∈ d.allocation_group.fixed_items,
      f ∈ keysOf d.allocation_group.allocations)
    (hsucc : add_child env h id name w = (some cid, "", h')) :
    ∃ d', h'.get id = some d' ∧
      lookupA d'.allocation_group.allocations (pyStrip name) =
        some (new_child_share d w) ∧
      (∀ k, k ≠ pyStrip name →
        lookupA d'.allocation_group.allocations k =
          lookupA d.allocation_group.allocations k) ∧
      d'.allocation_group.fixed_items = d.allocation_group.fixed_items := by
  by_cases hg1 : pyStrip name = "" ∨ (lookupA d.children (pyStrip name)).isSome
  · have hfail : add_child env h id name w =
        (none, "名稱不能為空或已存在", h) := by
      unfold add_child
      rw [hget]
      simp only [if_pos hg1]
    rw [hfail] at hsucc
    simp at hsucc
  · by_cases hg2 : env.can_have_children d.node_type = true
    · rcases hdet : determine_child_type env d (pyStrip name) with _ | nt
      · have hfail : add_child env h id name w =
            (none, "不支援此節點類型", h) := by
          unfold add_child
          rw [hget]
          simp only [hg2, hdet, if_neg hg1, not_true, if_false]
        rw [hfail] at hsucc
        simp at hsucc
      · rw [add_child_success_eq env h id d name w nt hget hg1 hg2 hdet]
          at hsucc
        have h3 : Heap.mk
            (setEntry (h.nodes ++ [(h.next_id,
              { name := pyStrip name, node_type := nt, children := [],
                allocation_group := ⟨[], []⟩, parent_node := some id })]) id
              (initialize_child_allocation
                { d with children :=
                    setEntry d.children (pyStrip name) h.next_id }
                (pyStrip name) w))
            (h.next_id + 1) = h' := congrArg (fun x => x.2.2) hsucc
        subst h3
        push_neg at hg1
        have hnotin : pyStrip name ∉ keysOf d.children := fun hm =>
          hg1.2 (lookupA_isSome_iff.mpr hm)
        rw [init_child_alloc_value d (pyStrip name) h.next_id w hnotin]
        exact ⟨_, lookupA_setEntry_self _ _ _, lookupA_setEntry_self _ _ _,
          fun k hk => lookupA_setEntry_ne _ hk, rfl⟩
    · have hg2' : env.can_have_children d.node_type = false := by
        simpa using hg2
      have hfail : add_child env h id name w = (none, "不能新增子節點", h) := by
        unfold add_child
        rw [hget]
        simp [hg1, hg2']
      rw [hfail] at hsucc
      simp at hsucc

/-- Witness for `add_child_share_rule`: the spec's §8 scenario — `VTI`
pinned at 70 among two children, then `add_child("BND")` assigns
`(100 − 70) / (3 − 1) = 15`. -/
theorem add_child_share_rule_witness :
    (c2heap.get 0 = some c2d) ∧
    (∀ f ∈ c2d.allocation_group.fixed_items,
      f ∈ keysOf c2d.allocation_group.allocations) ∧
    (add_child specEnv c2heap 0 "BND" 100 = (some 10, "", c2heap')) ∧
    new_child_share c2d 100 = 15 ∧
    (∃ d', c2heap'.get 0 = some d' ∧
      lookupA d'.allocation_group.allocations (pyStrip "BND") =
        some (new_child_share c2d 100) ∧
      (∀ k, k ≠ pyStrip "BND" →
        lookupA d'.allocation_group.allocations k =
          lookupA c2d.allocation_group.allocations k) ∧
      d'.allocation_group.fixed_items = c2d.allocation_group.fixed_items) :=
  ⟨rfl, by decide, by with_unfolding_all rfl, by with_unfolding_all rfl,
   add_child_share_rule specEnv c2heap 0 c2d "BND" 100 10 c2heap' rfl
     (by decide) (by with_unfolding_all rfl)⟩

/-- Claim C3, counterexample: adding, at the root, a child named exactly
`ROOT_NAME` succeeds (the root-category table defaults it to the `OTHER`
kind, valid for the root), producing a node that *has* a parent yet whose
`is_root` is `true` — `is_root` consults only the name, so the claimed
"no parent" condition does not hold. -/
theorem is_root_counterexample :
    ¬ (∀ cd, c3heap.get 1 = some cd →
        (is_root cd = true ↔ cd.parent_node = none ∧ cd.name = ROOT_NAME)) := by
  intro hcl
  have h1 : c3heap.get 1 = some c3child := by with_unfolding_all rfl
  have h2 := (hcl c3child h1).mp (by decide)
  exact absurd h2.1 (by decide)

/-- Claim C3 (amended): `is_root` returns `true` iff the node's name equals
the reserved root identifier — the parent link is not consulted. -/
theorem is_root_iff_name (d : NodeData) :
    is_root d = true ↔ d.name = ROOT_NAME := by
  simp [is_root]

/-- Claim C4, counterexample: on a leaf (symbol) node,
`get_available_child_names` returns the empty list, whose last element is
not the generic fallback `"其他"` — so the fallback is *not* always
appended. -/
theorem available_names_counterexample :
    get_available_child_names specEnv
      { name := "VTI", node_type := .ETF_SYMBOL, children := [],
        allocation_group := ⟨[], []⟩, parent_node := none } = [] ∧
    ([] : List String).getLast? ≠ some "其他" := by
  constructor
  · rfl
  · decide

/-- Claim C4 (amended): `get_available_child_names` returns either the empty
list (node cannot have children, or it has no valid child kinds) or a list
ending in the generic fallback `"其他"` — for the root because the fixed
category list already ends with it, otherwise by the explicit append. -/
theorem available_names_empty_or_ends_other (env : Env) (d : NodeData) :
    get_available_child_names env d = [] ∨
    (get_available_child_names env d).getLast? = some "其他" := by
  unfold get_available_child_names
  rcases hcan : env.can_have_children d.node_type with _ | _
  · left
    simp
  · rw [if_neg (by simp)]
    by_cases hroot : is_root d = true
    · rw [if_pos hroot]
      right
      rfl
    · rw [if_neg hroot]
      rcases hvt : env.get_valid_child_types d.node_type with _ | ⟨t1, ts⟩
      · left
        rfl
      · cases ts with
        | nil =>
            right
            exact List.getLast?_concat _
        | cons t2 ts2 =>
            right
            exact List.getLast?_concat _

/-- Claim C5, counterexample to the error-message clause: on a leaf node,
`add_child("")` fails with the empty-or-duplicate-name error, not the
"cannot add children" error — the name guard runs first. -/
theorem leaf_error_counterexample :
    specEnv.can_have_children NodeType.ETF_SYMBOL = false ∧
    (add_child specEnv (initHeap "VTI" .ETF_SYMBOL) 0 "" 100).2.1 =
      "名稱不能為空或已存在" ∧
    "名稱不能為空或已存在" ≠ "不能新增子節點" := by
  refine ⟨rfl, by with_unfolding_all rfl, by decide⟩

/-- Claim C5 (amended): on a node that cannot have children, `add_child`
always fails and leaves the heap (hence `children`) unchanged; the error is
"不能新增子節點" whenever the trimmed name is non-empty and not an existing
child key, and the empty-or-duplicate-name error otherwise. -/
theorem leaf_add_child_always_fails (env : Env) (h : Heap) (id : Nat)
    (d : NodeData) (name : String) (w : ℚ)
    (hget : h.get id = some d)
    (hleaf : env.can_have_children d.node_type = false) :
    add_child env h id name w =
      (none,
       if pyStrip name = "" ∨ (lookupA d.children (pyStrip name)).isSome then
         "名稱不能為空或已存在" else "不能新增子節點",
       h) := by
  unfold add_child
  rw [hget]
  by_cases hg1 : pyStrip name = "" ∨ (lookupA d.children (pyStrip name)).isSome
  · simp [hg1]
  · simp [hg1, hleaf]

/-- Witness for `leaf_add_child_always_fails` on a non-empty fresh name. -/
theorem leaf_add_child_always_fails_witness :
    ((initHeap "VTI" .ETF_SYMBOL).get 0 =
      some (NodeData.new "VTI" .ETF_SYMBOL)) ∧
    specEnv.can_have_children (NodeData.new "VTI" .ETF_SYMBOL).node_type =
      false ∧
    add_child specEnv (initHeap "VTI" .ETF_SYMBOL) 0 "x" 100 =
      (none,
       if pyStrip "x" = "" ∨
           (lookupA (NodeData.new "VTI" .ETF_SYMBOL).children
             (pyStrip "x")).isSome then
         "名稱不能為空或已存在" else "不能新增子節點",
       initHeap "VTI" .ETF_SYMBOL) :=
  ⟨rfl, rfl, leaf_add_child_always_fails specEnv _ 0 _ "x" 100 rfl rfl⟩

/-- Claim C6: (a) after any sequence of operations from a well-formed heap
no two children of any node share the same trimmed name (children keys are
pairwise distinct and each is its own strip); (b) calling `add_child` with
a name that trims to the empty string or to an existing child key leaves
the heap unchanged and returns the empty-or-duplicate-name error with no
node. -/
theorem add_child_unique_names :
    (∀ (env : Env) (h : Heap) (ops : List Op) (id : Nat) (d : NodeData),
      heapWF h → (run env h ops).get id = some d →
      List.Pairwise (fun a b => pyStrip a ≠ pyStrip b) (keysOf d.children)) ∧
    (∀ (env : Env) (h : Heap) (id : Nat) (d : NodeData) (name : String)
      (w : ℚ), h.get id = some d →
      (pyStrip name = "" ∨ (lookupA d.children (pyStrip name)).isSome) →
      add_child env h id name w = (none, "名稱不能為空或已存在", h)) := by
  constructor
  · intro env h ops id d hwf hget
    obtain ⟨hnodup, hfix⟩ :=
      ((heapWF_run env h ops hwf).2.2 _ (lookupA_mem hget)).1
    exact hnodup.imp_of_mem (fun ha hb hne heq =>
      hne ((hfix _ ha).symm.trans (heq.trans (hfix _ hb))))
  · intro env h id d name w hget hguard
    unfold add_child
    rw [hget]
    simp [hguard]

/-- Witness for `add_child_unique_names`: a run producing one child, and a
duplicate `add_child("VTI")` rejected on the resulting heap. -/
theorem add_child_unique_names_witness :
    heapWF (initHeap "ETF" .ETF) ∧
    (run specEnv (initHeap "ETF" .ETF) [Op.add 0 "VTI" 100]).get 0 =
      some c6d ∧
    List.Pairwise (fun a b => pyStrip a ≠ pyStrip b) (keysOf c6d.children) ∧
    c6heap.get 0 = some c6d ∧
    (pyStrip "VTI" = "" ∨ (lookupA c6d.children (pyStrip "VTI")).isSome) ∧
    add_child specEnv c6heap 0 "VTI" 100 =
      (none, "名稱不能為空或已存在", c6heap) :=
  ⟨heapWF_initHeap _ _, by with_unfolding_all rfl,
   add_child_unique_names.1 specEnv (initHeap "ETF" .ETF)
     [Op.add 0 "VTI" 100] 0 c6d (heapWF_initHeap _ _)
     (by with_unfolding_all rfl),
   rfl, by decide,
   add_child_unique_names.2 specEnv c6heap 0 c6d "VTI" 100 rfl (by decide)⟩

/-- Claim C7: removing an existing child removes it from `children`, from
`allocations`, and from `fixed_items` if present, returns `true`, and does
not renormalize the remaining siblings (all other children entries,
allocation values and fixed memberships are untouched, as are the node's
name and parent); removing a non-existent child returns `false` and leaves
the heap unchanged.  The Nodup hypotheses state the dict/set disciplines of
the Python structures. -/
theorem remove_child_bookkeeping (h : Heap) (id : Nat) (d : NodeData)
    (name : String)
    (hget : h.get id = some d)
    (hck : (keysOf d.children).Nodup)
    (hak : (keysOf d.allocation_group.allocations).Nodup)
    (hfk : d.allocation_group.fixed_items.Nodup) :
    ((lookupA d.children name).isSome = true →
      ∃ d', remove_child h id name = (true, h.set id d') ∧
        lookupA d'.children name = none ∧
        lookupA d'.allocation_group.allocations name = none ∧
        name ∉ d'.allocation_group.fixed_items ∧
        (∀ k, k ≠ name → lookupA d'.children k = lookupA d.children k) ∧
        (∀ k, k ≠ name → lookupA d'.allocation_group.allocations k =
          lookupA d.allocation_group.allocations k) ∧
        (∀ k, k ≠ name → (k ∈ d'.allocation_group.fixed_items ↔
          k ∈ d.allocation_group.fixed_items)) ∧
        d'.name = d.name ∧ d'.parent_node = d.parent_node) ∧
    ((lookupA d.children name).isNone = true →
      remove_child h id name = (false, h)) := by
  constructor
  · intro hpres
    refine ⟨
      { name := d.name, node_type := d.node_type,
        children := eraseKey d.children name,
        allocation_group :=
          ⟨(if (lookupA d.allocation_group.allocations name).isSome then
              eraseKey d.allocation_group.allocations name
            else d.allocation_group.allocations),
           (if name ∈ d.allocation_group.fixed_items then
              d.allocation_group.fixed_items.erase name
            else d.allocation_group.fixed_items)⟩,
        parent_node := d.parent_node }, ?_, ?_, ?_, ?_, ?_, ?_, ?_, rfl, rfl⟩
    · unfold remove_child
      rw [hget]
      have habs : ¬ (lookupA d.children name).isNone = true := by
        rcases hl : lookupA d.children name with _ | cv
        · rw [hl] at hpres
          simp at hpres
        · simp
      simp only [if_neg habs, AllocationGroup.toBool, if_true]
      by_cases hA : (lookupA d.allocation_group.allocations name).isSome
      · by_cases hF : name ∈ d.allocation_group.fixed_items
        · simp [hA, hF, Heap.set]
        · simp [hA, hF, Heap.set]
      · by_cases hF : name ∈ d.allocation_group.fixed_items
        · simp [hA, hF, Heap.set]
        · simp [hA, hF, Heap.set]
    · exact lookupA_eraseKey_self hck
    · show lookupA (if (lookupA d.allocation_group.allocations name).isSome
          then eraseKey d.allocation_group.allocations name
          else d.allocation_group.allocations) name = none
      split_ifs with hA
      · exact lookupA_eraseKey_self hak
      · exact Option.not_isSome_iff_eq_none.mp (by simpa using hA)
    · show name ∉ (if name ∈ d.allocation_group.fixed_items
          then d.allocation_group.fixed_items.erase name
          else d.allocation_group.fixed_items)
      split_ifs with hF
      · exact hfk.not_mem_erase
      · exact hF
    · intro k hk
      exact lookupA_eraseKey_ne hk
    · intro k hk
      show lookupA (if (lookupA d.allocation_group.allocations name).isSome
          then eraseKey d.allocation_group.allocations name
          else d.allocation_group.allocations) k = _
      split_ifs with hA
      · exact lookupA_eraseKey_ne hk
      · rfl
    · intro k hk
      show k ∈ (if name ∈ d.allocation_group.fixed_items
          then d.allocation_group.fixed_items.erase name
          else d.allocation_group.fixed_items) ↔ _
      split_ifs with hF
      · rw [List.Nodup.mem_erase_iff hfk]
        exact and_iff_right hk
      · exact Iff.rfl
  · intro habs
    unfold remove_child
    rw [hget]
    simp only [if_pos habs]

/-- Witness for `remove_child_bookkeeping`: removing the pinned child `VTI`
from a two-child container. -/
theorem remove_child_bookkeeping_witness :
    (c7heap.get 0 = some c7d) ∧
    (keysOf c7d.children).Nodup ∧
    (keysOf c7d.allocation_group.allocations).Nodup ∧
    c7d.allocation_group.fixed_items.Nodup ∧
    (lookupA c7d.children "VTI").isSome = true ∧
    (∃ d', remove_child c7heap 0 "VTI" = (true, c7heap.set 0 d') ∧
      lookupA d'.children "VTI" = none ∧
      lookupA d'.allocation_group.allocations "VTI" = none ∧
      "VTI" ∉ d'.allocation_group.fixed_items ∧
      (∀ k, k ≠ "VTI" → lookupA d'.children k = lookupA c7d.children k) ∧
      (∀ k, k ≠ "VTI" → lookupA d'.allocation_group.allocations k =
        lookupA c7d.allocation_group.allocations k) ∧
      (∀ k, k ≠ "VTI" → (k ∈ d'.allocation_group.fixed_items ↔
        k ∈ c7d.allocation_group.fixed_items)) ∧
      d'.name = c7d.name ∧ d'.parent_node = c7d.parent_node) :=
  ⟨rfl, by decide, by decide, by decide, by decide,
   (remove_child_bookkeeping c7heap 0 c7d "VTI" rfl (by decide) (by decide)
     (by decide)).1 (by decide)⟩

/-- Claim C8: `full_path` is exactly the root-to-node name sequence joined
by the `" -> "` separator (for every parent chain; it is a pure function of
the chain), and on the three-level chain root → A → B it yields
root-name ++ " -> A -> B". -/
theorem full_path_joins_names :
    (∀ u : UpNode, full_path u = joinPath (names_from_root u)) ∧
    full_path (.child "B" (.child "A" (.orphan "投資組合"))) =
      "投資組合 -> A -> B" := by
  constructor
  · intro u
    induction u with
    | orphan n => rfl
    | child n p ih =>
        show full_path p ++ " -> " ++ n = joinPath (names_from_root p ++ [n])
        rw [joinPath_append _ (names_from_root_ne_nil p) n, ih]
  · rfl

/-- Claim C9: every flow value recorded by `create_sankey_chart` is the
target child's global weight — starting from 100 at the root, each step
multiplies by that step's local allocation percentage (0 when the child is
absent from its parent's `allocations`) divided by 100; the recorded list
is exactly these weights for all non-root nodes in depth-first preorder. -/
theorem sankey_flows_are_global_weights (node : VNode) :
    (create_sankey_chart node).flow_values = node_flows node 100 := by
  rw [create_sankey_chart,
    sankey_loop_flows (([(node, -1, 100)].map (fun e => e.1.size)).sum)
      [(node, -1, 100)] SankeyChart.new rfl]
  simp [entries_flows, SankeyChart.new]

/-- Claim C10: from any well-formed heap, after any sequence of operations,
every children entry `(name, child)` of every node points to a live node
whose `parent_node` is that node and whose `name` is the entry's key. -/
theorem parent_backref_invariant (env : Env) (h : Heap) (ops : List Op)
    (hwf : heapWF h) (id : Nat) (d : NodeData)
    (hget : (run env h ops).get id = some d) (nm : String) (cid : Nat)
    (hmem : (nm, cid) ∈ d.children) :
    ∃ cd, (run env h ops).get cid = some cd ∧
      cd.parent_node = some id ∧ cd.name = nm :=
  ((heapWF_run env h ops hwf).2.2 _ (lookupA_mem hget)).2.2 nm cid hmem

/-- Witness for `parent_backref_invariant` after one `add_child`. -/
theorem parent_backref_invariant_witness :
    heapWF (initHeap "ETF" .ETF) ∧
    (run specEnv (initHeap "ETF" .ETF) [Op.add 0 "VTI" 100]).get 0 =
      some c6d ∧
    ("VTI", 1) ∈ c6d.children ∧
    (∃ cd, (run specEnv (initHeap "ETF" .ETF) [Op.add 0 "VTI" 100]).get 1 =
        some cd ∧ cd.parent_node = some 0 ∧ cd.name = "VTI") :=
  ⟨heapWF_initHeap _ _, by with_unfolding_all rfl, by decide,
   parent_backref_invariant specEnv (initHeap "ETF" .ETF)
     [Op.add 0 "VTI" 100] (heapWF_initHeap _ _) 0 c6d
     (by with_unfolding_all rfl) "VTI" 1 (by decide)⟩

end Claims

end Portfolio
